import Mathlib

/-!
Shallow embedding of the Uno game engine (`src/uno/model/game.py`,
`src/uno/model/card.py`) and of the reinforcement-learning agent
(`src/uno/player/reinforcement.py`).

Python lists are embedded as Lean `List`s; `list.pop()` pops the last
element, so the "top" of each pile is the last element of the list.
`random.shuffle` is embedded as an arbitrary function `sh` together with
the hypothesis `IsShuffle sh` (it permutes its input); `random.choice`
of a wild color is an explicit parameter.  Methods that can raise
(`draw_card` on an exhausted deck, `play_action` on a card absent from
the hand, `reset` on a too-small deck) return `Option`.

Python `Card` objects are mutable (the `color` field is reassigned when
a wild is resolved or recycled); here a card is a value and recoloring
builds a new value.  `hand.remove(card)` removes one occurrence, which
is `List.erase` up to permutation of equal values.
-/

namespace Uno

inductive UColor
  | RED | BLUE | YELLOW | GREEN | WILD | NOCOLOR
deriving DecidableEq, Repr

/-- `Card.decode_color` from card.py: the first character of the code.
`NOCOLOR` embeds the Python `None` returned on an unrecognized character. -/
def decode_color (c : Char) : UColor :=
  if c = 'R' then UColor.RED
  else if c = 'B' then UColor.BLUE
  else if c = 'Y' then UColor.YELLOW
  else if c = 'G' then UColor.GREEN
  else if c = 'W' then UColor.WILD
  else UColor.NOCOLOR

/-- `Card.decode_rank` from card.py: digits map to themselves, the five
special letters map to themselves, anything else to `none` (Python `None`). -/
def decode_rank (c : Char) : Option Char :=
  if c.isDigit then some c
  else if c = 'S' then some 'S'
  else if c = 'D' then some 'D'
  else if c = 'R' then some 'R'
  else if c = 'W' then some 'W'
  else if c = 'X' then some 'X'
  else none

/-- A card: the immutable two-character code and the current (mutable in
Python) color.  The rank is never reassigned in the source, so it is
recomputed from the code on demand. -/
structure Card where
  code : Char × Char
  color : UColor
deriving DecidableEq, Repr

/-- `Card.__init__`: decode the color from the code. -/
def Card.init (code : Char × Char) : Card :=
  { code := code, color := decode_color code.1 }

def Card.rank (c : Card) : Option Char := decode_rank c.code.2

/-- `Card.is_wild`: tests the code's first character, not the current color. -/
def Card.is_wild (c : Card) : Bool := c.code.1 = 'W'

/-- `Card.is_playable`: color match, rank match, or own color WILD. -/
def Card.is_playable (c top : Card) : Bool :=
  c.color = top.color || c.rank = top.rank || c.color = UColor.WILD

/-- The wild-color reset applied to recycled cards in `draw_card`. -/
def resetWildColor (c : Card) : Card :=
  if c.is_wild then { c with color := UColor.WILD } else c

/-- Actions, the tagged form of the Python dicts
`{"action": "pass"} | {"action": "draw"} | {"action": "play", "card": c, "color"?: col}`. -/
inductive Action
  | pass
  | draw
  | play (card : Card) (color : Option UColor)
deriving DecidableEq, Repr

/-- The state dict returned by `UnoGame.get_state`. -/
structure GameState where
  hand : List Card
  top_card : Card
  opponent_hands : List Nat
  clockwise : Bool
  drawn_card : Option Card
deriving DecidableEq, Repr

/-- The full engine state of `UnoGame`.  `num_players` embeds
`len(self.players)`; the members of `players` themselves and the
`messages` log play no role in the claims.  The current player's index
into `hands` stands for the player object. -/
structure UnoGame where
  draw_pile : List Card
  play_pile : List Card
  hands : List (List Card)
  current_player_index : Nat
  clockwise : Bool
  drawn_card : Option Card
  num_players : Nat
deriving DecidableEq, Repr

/-- `top_card`: the last element of the play pile.  Python raises on an
empty pile; every state the claims quantify over has a non-empty pile,
so the default is never read there. -/
def UnoGame.top_card (g : UnoGame) : Card :=
  (g.play_pile.getLast?).getD (Card.init ('R', '0'))

/-- `current_hand`.  Python indexes `self.hands`; out-of-range indexing
raises, here it defaults to `[]` (never reached on well-formed states). -/
def UnoGame.current_hand (g : UnoGame) : List Card :=
  g.hands.getD g.current_player_index []

/-- `num_players` is carried as a field because during `reset` the hands
list is still being built while `len(self.players)` is already fixed. -/
def UnoGame.is_over (g : UnoGame) : Bool :=
  g.hands.any (fun h => h.length = 0)

/-- `next_player_index`: Python `%` on a possibly negative left operand
with a positive modulus agrees with `Int.emod`. -/
def UnoGame.next_player_index (g : UnoGame) : Nat :=
  (((g.current_player_index : Int) + (if g.clockwise then 1 else -1)) %
    (g.num_players : Int)).toNat

/-- `end_of_turn`: advance the current player unless the game is over.
(The one-card-left message only appends to the log.) -/
def UnoGame.end_of_turn (g : UnoGame) : UnoGame :=
  if g.is_over then g
  else { g with current_player_index := g.next_player_index }

/-- The recycling step inside `draw_card`: the play pile keeps only its
top card, the rest is shuffled into a new draw pile with wild colors
restored.  On an empty play pile Python raises (`pop` of an empty list);
here the state is returned unchanged and the caller then fails. -/
def UnoGame.recycle (sh : List Card → List Card) (g : UnoGame) : UnoGame :=
  match g.play_pile.getLast? with
  | none => g
  | some top =>
      { g with
        draw_pile := (sh g.play_pile.dropLast).map resetWildColor,
        play_pile := [top] }

/-- The final emptiness check and `self.draw_pile.pop()` of `draw_card`:
`none` embeds the "Ran out of cards!" exception. -/
def drawTop (g : UnoGame) : Option (Card × UnoGame) :=
  match g.draw_pile.getLast? with
  | none => none
  | some c => some (c, { g with draw_pile := g.draw_pile.dropLast })

/-- `draw_card`: pop the draw pile, recycling the play pile first if the
draw pile is empty. -/
def UnoGame.draw_card (sh : List Card → List Card) (g : UnoGame) :
    Option (Card × UnoGame) :=
  drawTop (if g.draw_pile.length = 0 then g.recycle sh else g)

/-- `self.current_hand().append(card)`. -/
def UnoGame.append_to_current (g : UnoGame) (c : Card) : UnoGame :=
  { g with
    hands := g.hands.set g.current_player_index (g.current_hand ++ [c]) }

/-- `game.current_hand().append(game.draw_card())` as used by `Card.activate`. -/
def UnoGame.draw_to_current (sh : List Card → List Card) (g : UnoGame) :
    Option UnoGame :=
  match g.draw_card sh with
  | none => none
  | some (c, g1) => some (g1.append_to_current c)

/-- The `for card in range(n)` draw loops of `Card.activate`. -/
def drawNToCurrent (sh : List Card → List Card) :
    Nat → UnoGame → Option UnoGame
  | 0, g => some g
  | n + 1, g =>
    match g.draw_to_current sh with
    | none => none
    | some g1 => drawNToCurrent sh n g1

/-- `Card.activate` from card.py, dispatching on the rank.  It runs after
the turn has already advanced, so "current" is the next player. -/
def activate (sh : List Card → List Card) (c : Card) (g : UnoGame) :
    Option UnoGame :=
  if c.rank = some 'S' then
    some g.end_of_turn
  else if c.rank = some 'D' then
    match drawNToCurrent sh 2 g with
    | none => none
    | some g2 => some g2.end_of_turn
  else if c.rank = some 'R' then
    some { g with clockwise := !g.clockwise }
  else if c.rank = some 'X' then
    match drawNToCurrent sh 4 g with
    | none => none
    | some g4 => some g4.end_of_turn
  else
    some g

/-- `opponent_hands`: hand sizes at offsets 1 .. n-1 clockwise from the
current player, regardless of the direction flag. -/
def UnoGame.opponent_hands (g : UnoGame) : List Nat :=
  (List.range (g.num_players - 1)).map
    (fun i =>
      (g.hands.getD ((g.current_player_index + (i + 1)) % g.num_players) []).length)

/-- `get_state`: the projection handed to players. -/
def UnoGame.get_state (g : UnoGame) : GameState :=
  { hand := g.current_hand
    top_card := g.top_card
    opponent_hands := g.opponent_hands
    clockwise := g.clockwise
    drawn_card := g.drawn_card }

/-- The color expansion in `get_actions`: a wild card yields one play
action per concrete color, any other card a single play action. -/
def playVariants (c : Card) : List Action :=
  if c.is_wild then
    [UColor.RED, UColor.BLUE, UColor.YELLOW, UColor.GREEN].map
      (fun col => Action.play c (some col))
  else
    [Action.play c none]

/-- `get_actions` from game.py. -/
def UnoGame.get_actions (g : UnoGame) : List Action :=
  if g.is_over then []
  else
    match g.drawn_card with
    | some dc => Action.pass :: playVariants dc
    | none =>
        let plays := g.current_hand.flatMap
          (fun c => if c.is_playable g.top_card then playVariants c else [])
        if plays.length = 0 then [Action.draw] else plays

/-- `winner`: the first player with an empty hand, embedded as an index. -/
def UnoGame.winner_index (g : UnoGame) : Option Nat :=
  g.hands.findIdx? (fun h => h.length = 0)

/-- `get_reward`: +1, -1 or 0, judged from whoever is current at call time. -/
def UnoGame.get_reward (g : UnoGame) : Int :=
  if g.is_over then
    if some g.current_player_index = g.winner_index then 1 else -1
  else 0

/-- `play_action` from game.py.  The entry `self.drawn_card = None`
happens before the branch.  In the play branch Python mutates the shared
card object's color, appends it to the play pile and removes that same
object from the hand; as values: recolor a copy for the pile, erase the
original from the hand.  A played card absent from the hand would raise
`ValueError` in Python (`none` here); actions from `get_actions` always
pass the check. -/
def UnoGame.play_action (sh : List Card → List Card) (g0 : UnoGame)
    (a : Action) : Option UnoGame :=
  let g := { g0 with drawn_card := none }
  match a with
  | Action.pass => some g.end_of_turn
  | Action.draw =>
      match g.draw_card sh with
      | none => none
      | some (c, g1) =>
        if c.is_playable (g1.append_to_current c).top_card then
          some { g1.append_to_current c with drawn_card := some c }
        else
          some (g1.append_to_current c).end_of_turn
  | Action.play c col =>
      if c ∈ g.current_hand then
        let cc := match col with
          | some chosen => { c with color := chosen }
          | none => c
        activate sh cc
          ({ g with
             play_pile := g.play_pile ++ [cc],
             hands := g.hands.set g.current_player_index (g.current_hand.erase c)
           }).end_of_turn
      else none

/-- Draw `n` cards in sequence, as the dealing comprehension in `reset` does. -/
def drawN (sh : List Card → List Card) : Nat → UnoGame → Option (List Card × UnoGame)
  | 0, g => some ([], g)
  | n + 1, g =>
    match g.draw_card sh with
    | none => none
    | some (c, g1) =>
      match drawN sh n g1 with
      | none => none
      | some (cs, g2) => some (c :: cs, g2)

/-- The dealing loop of `reset`: one hand of `startCards` cards per player. -/
def dealHands (sh : List Card → List Card) (startCards : Nat) :
    Nat → UnoGame → Option UnoGame
  | 0, g => some g
  | n + 1, g =>
    match drawN sh startCards g with
    | none => none
    | some (hand, g1) =>
      dealHands sh startCards n { g1 with hands := g1.hands ++ [hand] }

/-- `reset` from game.py: build the deck from codes, shuffle, deal, flip
one card; a wild flip card gets the (randomly chosen) `wildColor`.
During dealing the Python instance has no `play_pile` attribute yet, so
exhausting the deck there raises; here `play_pile = []` makes the
recycle a no-op and the draw fails, the same observable outcome. -/
def reset (sh : List Card → List Card) (wildColor : UColor)
    (deck : List (Char × Char)) (numPlayers startCards : Nat) :
    Option UnoGame :=
  match dealHands sh startCards numPlayers
      { draw_pile := sh (deck.map Card.init)
        play_pile := []
        hands := []
        current_player_index := 0
        clockwise := true
        drawn_card := none
        num_players := numPlayers } with
  | none => none
  | some g1 =>
    match g1.draw_card sh with
    | none => none
    | some (c, g2) =>
      some { g2 with
        play_pile := [if c.is_wild then { c with color := wildColor } else c] }

/-- Total number of cards in play: draw pile + play pile + all hands. -/
def UnoGame.totalCards (g : UnoGame) : Nat :=
  g.draw_pile.length + g.play_pile.length + (g.hands.map List.length).sum

/-- `random.shuffle` permutes the list in place. -/
def IsShuffle (sh : List Card → List Card) : Prop :=
  ∀ l : List Card, (sh l).Perm l

/-- States reachable from a successful `reset` by legal `play_action`
steps; each step may use its own shuffle. -/
inductive Reachable (deck : List (Char × Char)) (numPlayers startCards : Nat) :
    UnoGame → Prop
  | from_reset (sh : List Card → List Card) (wildColor : UColor) (g : UnoGame) :
      IsShuffle sh →
      wildColor ∈ [UColor.RED, UColor.YELLOW, UColor.GREEN, UColor.BLUE] →
      reset sh wildColor deck numPlayers startCards = some g →
      Reachable deck numPlayers startCards g
  | step (sh : List Card → List Card) (g g' : UnoGame) (a : Action) :
      Reachable deck numPlayers startCards g →
      IsShuffle sh →
      a ∈ g.get_actions →
      g.play_action sh a = some g' →
      Reachable deck numPlayers startCards g'

/-!
Embedding of `ReinforcementLearningUnoPlayer` (reinforcement.py).
Weights are embedded by their list of values (for `normalize_weights`,
whose behavior does not depend on the feature names) and by association
lists of `(feature name, value)` where the names matter (training data).
Python floats are embedded as exact rationals.
-/

/-- `normalize_weights`: if the sum of absolute weight values exceeds 1,
divide every weight by that sum. -/
def normalize_weights (w : List ℚ) : List ℚ :=
  let weight_sum := (w.map (fun x => |x|)).sum
  if 1 < weight_sum then w.map (fun x => x / weight_sum) else w

/-- One record of the training history: the weight mapping, the test
result, and the hyperparameter snapshot. -/
structure TrainingRecord where
  weights : List (String × ℚ)
  test_results : ℚ
  params : List (String × ℚ)
deriving DecidableEq, Repr

/-- The feature-name set of a record's weight mapping (Python
`epoch['weights'].keys()`, compared as a set). -/
def TrainingRecord.feature_keys (r : TrainingRecord) : Finset String :=
  (r.weights.map Prod.fst).toFinset

/-- `validate_training_data`: empty history is an error; the loop raises
on any epoch whose weight keys differ from the configured feature set. -/
def validate_training_data (featureNames : List String)
    (training_data : List TrainingRecord) : Except String Unit :=
  if training_data.length = 0 then
    Except.error "Training data is empty."
  else if training_data.all
      (fun epoch => featureNames.toFinset = epoch.feature_keys) then
    Except.ok ()
  else
    Except.error "Training data has different features from this class."

/-- `load_training_data` (with `load_params = False`): validate, install
the whole history and the latest record's weights. -/
def load_training_data (featureNames : List String)
    (training_data : List TrainingRecord) :
    Except String (List TrainingRecord × List (String × ℚ)) :=
  match validate_training_data featureNames training_data with
  | Except.error e => Except.error e
  | Except.ok _ =>
      Except.ok (training_data,
        ((training_data.getLast?).map TrainingRecord.weights).getD [])

/-- The game reads performed by `train_sarsa_experience`
(reinforcement.py lines 92-106) after `prepare_game` returns: the state
on which the chosen action's quality is predicted (line 93), the
`result_state` used for the reward and the next-state quality
(line 97), and the reward (line 98).  Between line 93 and line 97 the
code calls `get_actions`, the agent's `choose_action` and `quality` —
all reads — and never `play_action`, so both `get_state` calls observe
the same engine value. -/
def sarsa_experience_game_reads (g : UnoGame) : GameState × GameState × Int :=
  (g.get_state, g.get_state, g.get_reward)

/-- The body of both loops in `prepare_game` (reinforcement.py lines
183-184 and 188-189): `game.current_player().choose_action(...)` is
evaluated and its result discarded; no engine-mutating method is
called, so the engine value is unchanged. -/
def prepare_game_loop_body (g : UnoGame) : UnoGame := g

/-- The guard of the first `prepare_game` loop, with the learning agent
identified by its player index (`game.current_player() != self`). -/
def prepare_game_guard (agentIdx : Nat) (g : UnoGame) : Bool :=
  !g.is_over && g.current_player_index != agentIdx

/-!
Concrete fixtures used to instantiate theorems and to refute claims.
Card names follow their two-character codes from `decks.py`.
-/

def cardR0 : Card := Card.init ('R', '0')
def cardR1 : Card := Card.init ('R', '1')
def cardR5 : Card := Card.init ('R', '5')
def cardG7 : Card := Card.init ('G', '7')
def cardB3 : Card := Card.init ('B', '3')
def cardB4 : Card := Card.init ('B', '4')
def cardY1 : Card := Card.init ('Y', '1')
def cardY2 : Card := Card.init ('Y', '2')
def cardY3 : Card := Card.init ('Y', '3')
def cardRD : Card := Card.init ('R', 'D')

/-- A wild card whose color has been resolved to RED on the play pile. -/
def cardWWred : Card := { code := ('W', 'W'), color := UColor.RED }

/-- A mid-game position: player 0 holds a playable R5. -/
def gC1 : UnoGame :=
  { draw_pile := [cardY1, cardY2]
    play_pile := [cardR0]
    hands := [[cardR5, cardG7], [cardB3, cardB4]]
    current_player_index := 0
    clockwise := true
    drawn_card := none
    num_players := 2 }

/-- The play action available to player 0 in `gC1`. -/
def aC1 : Action := Action.play cardR5 none

/-- A position where player 0's whole hand is a single DrawTwo. -/
def gC5 : UnoGame :=
  { draw_pile := [cardY1, cardY2, cardY3]
    play_pile := [cardR0]
    hands := [[cardRD], [cardB3, cardB4]]
    current_player_index := 0
    clockwise := true
    drawn_card := none
    num_players := 2 }

/-- The play action available to player 0 in `gC5`. -/
def aC5 : Action := Action.play cardRD none

/-- Like `gC5` but the DrawTwo is not the last card of the hand. -/
def gC5w : UnoGame :=
  { gC5 with hands := [[cardRD, cardG7], [cardB3, cardB4]] }

/-- The state `gC5w.play_action id aC5` reaches. -/
def gC5w' : UnoGame :=
  { draw_pile := [cardY1]
    play_pile := [cardR0, cardRD]
    hands := [[cardG7], [cardB3, cardB4, cardY3, cardY2]]
    current_player_index := 0
    clockwise := true
    drawn_card := none
    num_players := 2 }

/-- Like `gC5` but player 0's last card is a plain number card. -/
def gC10w : UnoGame :=
  { gC5 with hands := [[cardR5], [cardB3, cardB4]] }

/-- The state `gC10w.play_action id (Action.play cardR5 none)` reaches. -/
def gC10w' : UnoGame :=
  { draw_pile := [cardY1, cardY2, cardY3]
    play_pile := [cardR0, cardR5]
    hands := [[], [cardB3, cardB4]]
    current_player_index := 0
    clockwise := true
    drawn_card := none
    num_players := 2 }

/-- An exhausted draw pile with a recyclable play pile (a resolved wild
below the top card). -/
def gC4 : UnoGame :=
  { draw_pile := []
    play_pile := [cardWWred, cardB3]
    hands := [[cardR5], [cardG7]]
    current_player_index := 0
    clockwise := true
    drawn_card := none
    num_players := 2 }

/-- A three-player counter-clockwise position with pairwise distinct
hand sizes 1, 2, 3. -/
def gC7 : UnoGame :=
  { draw_pile := []
    play_pile := [cardR0]
    hands := [[cardR5], [cardB3, cardB4], [cardY1, cardY2, cardY3]]
    current_player_index := 0
    clockwise := false
    drawn_card := none
    num_players := 3 }

/-- The same position played clockwise. -/
def gC7cw : UnoGame := { gC7 with clockwise := true }

/-- A training record whose weight keys are {"b"}. -/
def recB : TrainingRecord := { weights := [("b", 1)], test_results := 0, params := [] }

/-- A training record whose weight keys are {"a"}. -/
def recA : TrainingRecord := { weights := [("a", 1)], test_results := 0, params := [] }

/-- A history whose latest record matches features ["a"] but whose
earlier record does not. -/
def dataC9 : List TrainingRecord := [recB, recA]

/-- A deck of six distinct no-special codes, for a 2-player, 2-card game. -/
def deckW : List (Char × Char) :=
  [('R', '0'), ('R', '1'), ('B', '3'), ('B', '4'), ('G', '7'), ('Y', '1')]

/-- The state `reset id UColor.RED deckW 2 2` produces (dealing pops
from the end of the unshuffled deck). -/
def gW : UnoGame :=
  { draw_pile := [cardR0]
    play_pile := [cardR1]
    hands := [[cardY1, cardG7], [cardB4, cardB3]]
    current_player_index := 0
    clockwise := true
    drawn_card := none
    num_players := 2 }

/-! ## Theorems -/

theorem drawTop_none (g : UnoGame) (h : g.draw_pile = []) : drawTop g = none := by
  unfold drawTop
  rw [h]
  rfl

theorem drawTop_some (g : UnoGame) (hne : g.draw_pile ≠ []) :
    drawTop g = some (g.draw_pile.getLast hne,
      { g with draw_pile := g.draw_pile.dropLast }) := by
  unfold drawTop
  rw [List.getLast?_eq_getLast _ hne]

theorem recycle_eq_of_play_nil (sh : List Card → List Card) (g : UnoGame)
    (h : g.play_pile = []) : g.recycle sh = g := by
  unfold UnoGame.recycle
  rw [h]
  rfl

theorem recycle_eq (sh : List Card → List Card) (g : UnoGame) (top : Card)
    (htop : g.play_pile.getLast? = some top) :
    g.recycle sh = { g with
      draw_pile := (sh g.play_pile.dropLast).map resetWildColor,
      play_pile := [top] } := by
  unfold UnoGame.recycle
  rw [htop]

/-- Frame and counting facts about a successful `draw_card`: hands, turn
pointer, direction, pending card and player count are untouched, exactly
one card leaves the piles, and a draw from a state with an empty play
pile leaves the play pile empty. -/
theorem draw_card_some_spec (sh : List Card → List Card) (g : UnoGame)
    (c : Card) (g' : UnoGame) (hsh : IsShuffle sh)
    (h : g.draw_card sh = some (c, g')) :
    g'.hands = g.hands ∧
    g'.current_player_index = g.current_player_index ∧
    g'.clockwise = g.clockwise ∧
    g'.drawn_card = g.drawn_card ∧
    g'.num_players = g.num_players ∧
    g'.totalCards + 1 = g.totalCards ∧
    (g.play_pile = [] → g'.play_pile = []) := by
  unfold UnoGame.draw_card at h
  by_cases hd : g.draw_pile.length = 0
  · rw [if_pos hd] at h
    have hdnil : g.draw_pile = [] := List.length_eq_zero.mp hd
    cases hpp : g.play_pile.getLast? with
    | none =>
      rw [recycle_eq_of_play_nil sh g (List.getLast?_eq_none_iff.mp hpp),
        drawTop_none g hdnil] at h
      cases h
    | some top =>
      have hppne : g.play_pile ≠ [] := by
        intro hh
        rw [hh] at hpp
        cases hpp
      rw [recycle_eq sh g top hpp] at h
      by_cases hLnil : (sh g.play_pile.dropLast).map resetWildColor = []
      · rw [drawTop_none _ (by simpa using hLnil)] at h
        cases h
      · rw [drawTop_some _ (by simpa using hLnil)] at h
        simp only [Option.some.injEq, Prod.mk.injEq] at h
        obtain ⟨hc, hg'⟩ := h
        subst hg'
        refine ⟨rfl, rfl, rfl, rfl, rfl, ?_, fun hh => absurd hh hppne⟩
        have hLlen : ((sh g.play_pile.dropLast).map resetWildColor).length
            = g.play_pile.length - 1 := by
          rw [List.length_map, (hsh _).length_eq, List.length_dropLast]
        have hppos : 1 ≤ g.play_pile.length := List.length_pos.mpr hppne
        have hLpos : 1 ≤ ((sh g.play_pile.dropLast).map resetWildColor).length :=
          List.length_pos.mpr (by simpa using hLnil)
        simp only [UnoGame.totalCards, List.length_dropLast, hdnil]
        simp [hLlen]
        omega
  · rw [if_neg hd] at h
    have hdne : g.draw_pile ≠ [] := fun hh => hd (by rw [hh]; rfl)
    rw [drawTop_some g hdne] at h
    simp only [Option.some.injEq, Prod.mk.injEq] at h
    obtain ⟨hc, hg'⟩ := h
    subst hg'
    refine ⟨rfl, rfl, rfl, rfl, rfl, ?_, fun hh => hh⟩
    have hdpos : 1 ≤ g.draw_pile.length := List.length_pos.mpr hdne
    simp only [UnoGame.totalCards, List.length_dropLast]
    omega

theorem getD_set_self {α : Type} (l : List α) (i : Nat) (x d : α)
    (hi : i < l.length) : (l.set i x).getD i d = x := by
  simp [List.getD_eq_getElem?_getD, List.getElem?_set_self, hi]

theorem getD_set_ne {α : Type} (l : List α) (i j : Nat) (x d : α)
    (h : i ≠ j) : (l.set i x).getD j d = l.getD j d := by
  simp [List.getD_eq_getElem?_getD, List.getElem?_set_ne h]

theorem set_getD_eq (l : List (List Card)) (i : Nat) (hi : i < l.length) :
    l.set i (l.getD i []) = l := by
  induction l generalizing i with
  | nil => simp at hi
  | cons a t ih =>
    cases i with
    | zero => simp
    | succ n =>
      have hn : n < t.length := Nat.lt_of_succ_lt_succ hi
      rw [List.getD_cons_succ, List.set_cons_succ, ih n hn]

theorem sum_length_set (hands : List (List Card)) (i : Nat) (h : List Card)
    (hi : i < hands.length) :
    ((hands.set i h).map List.length).sum + (hands.getD i []).length
      = (hands.map List.length).sum + h.length := by
  induction hands generalizing i with
  | nil => simp at hi
  | cons a t ih =>
    cases i with
    | zero =>
      simp
      omega
    | succ n =>
      simp only [List.set_cons_succ, List.map_cons, List.sum_cons,
        List.getD_cons_succ]
      have hn : n < t.length := Nat.lt_of_succ_lt_succ hi
      have := ih n hn
      omega

theorem end_of_turn_of_over (g : UnoGame) (h : g.is_over = true) :
    g.end_of_turn = g := by
  unfold UnoGame.end_of_turn
  rw [if_pos h]

theorem end_of_turn_of_not_over (g : UnoGame) (h : g.is_over = false) :
    g.end_of_turn = { g with current_player_index := g.next_player_index } := by
  unfold UnoGame.end_of_turn
  rw [if_neg (by simp [h])]

theorem end_of_turn_fields (g : UnoGame) :
    g.end_of_turn.draw_pile = g.draw_pile ∧
    g.end_of_turn.play_pile = g.play_pile ∧
    g.end_of_turn.hands = g.hands ∧
    g.end_of_turn.clockwise = g.clockwise ∧
    g.end_of_turn.drawn_card = g.drawn_card ∧
    g.end_of_turn.num_players = g.num_players := by
  unfold UnoGame.end_of_turn
  split <;> exact ⟨rfl, rfl, rfl, rfl, rfl, rfl⟩

theorem end_of_turn_totalCards (g : UnoGame) :
    g.end_of_turn.totalCards = g.totalCards := by
  unfold UnoGame.totalCards
  rw [(end_of_turn_fields g).1, (end_of_turn_fields g).2.1,
    (end_of_turn_fields g).2.2.1]

theorem next_player_index_lt (g : UnoGame) (h : 1 ≤ g.num_players) :
    g.next_player_index < g.num_players := by
  unfold UnoGame.next_player_index
  have hn : (0 : Int) < (g.num_players : Int) := by exact_mod_cast h
  by_cases hcw : g.clockwise
  · rw [hcw, if_pos rfl]
    have h1 := Int.emod_lt_of_pos ((g.current_player_index : Int) + 1) hn
    have h2 := Int.emod_nonneg ((g.current_player_index : Int) + 1)
      (ne_of_gt hn)
    omega
  · rw [if_neg hcw]
    have h1 := Int.emod_lt_of_pos ((g.current_player_index : Int) + -1) hn
    have h2 := Int.emod_nonneg ((g.current_player_index : Int) + -1)
      (ne_of_gt hn)
    omega

theorem next_player_index_ne (g : UnoGame) (h2 : 2 ≤ g.num_players)
    (hc : g.current_player_index < g.num_players) :
    g.next_player_index ≠ g.current_player_index := by
  unfold UnoGame.next_player_index
  by_cases hcw : g.clockwise
  · rw [hcw, if_pos rfl]
    rw [show ((g.current_player_index : Int) + 1)
        = ((g.current_player_index + 1 : Nat) : Int) by push_cast; ring,
      ← Int.natCast_mod, Int.toNat_natCast]
    rcases Nat.lt_or_ge (g.current_player_index + 1) g.num_players with hlt | hge
    · rw [Nat.mod_eq_of_lt hlt]
      omega
    · have heq : g.current_player_index + 1 = g.num_players := by omega
      rw [heq, Nat.mod_self]
      omega
  · rw [if_neg hcw]
    rcases Nat.eq_zero_or_pos g.current_player_index with h0 | hpos
    · rw [h0]
      have hrw : ((0 : Nat) : Int) + -1
          = ((g.num_players : Int) - 1) + (g.num_players : Int) * (-1) := by
        ring
      rw [hrw, Int.add_mul_emod_self_left,
        Int.emod_eq_of_lt (by omega) (by omega)]
      omega
    · rw [Int.emod_eq_of_lt (by omega) (by omega)]
      omega

theorem end_of_turn_cur_lt (g : UnoGame)
    (h : g.current_player_index < g.num_players) :
    g.end_of_turn.current_player_index < g.end_of_turn.num_players := by
  rw [(end_of_turn_fields g).2.2.2.2.2]
  unfold UnoGame.end_of_turn
  split
  · exact h
  · exact next_player_index_lt g (by omega)

theorem append_to_current_totalCards (g : UnoGame) (c : Card)
    (hcur : g.current_player_index < g.hands.length) :
    (g.append_to_current c).totalCards = g.totalCards + 1 := by
  unfold UnoGame.append_to_current UnoGame.totalCards UnoGame.current_hand
  have h2 := sum_length_set g.hands g.current_player_index
    (g.hands.getD g.current_player_index [] ++ [c]) hcur
  rw [List.length_append] at h2
  simp only [List.length_singleton] at h2
  simp only []
  omega

/-- A successful `draw_card` changes only the two piles. -/
theorem draw_card_some_eq (sh : List Card → List Card) (g : UnoGame)
    (c : Card) (g' : UnoGame) (h : g.draw_card sh = some (c, g')) :
    ∃ dp pp, g' = { g with draw_pile := dp, play_pile := pp } := by
  unfold UnoGame.draw_card at h
  by_cases hd : g.draw_pile.length = 0
  · rw [if_pos hd] at h
    cases hpp : g.play_pile.getLast? with
    | none =>
      rw [recycle_eq_of_play_nil sh g (List.getLast?_eq_none_iff.mp hpp),
        drawTop_none g (List.length_eq_zero.mp hd)] at h
      cases h
    | some top =>
      rw [recycle_eq sh g top hpp] at h
      by_cases hLnil : (sh g.play_pile.dropLast).map resetWildColor = []
      · rw [drawTop_none _ hLnil] at h
        cases h
      · rw [drawTop_some _ hLnil] at h
        simp only [Option.some.injEq, Prod.mk.injEq] at h
        exact ⟨_, _, h.2.symm⟩
  · rw [if_neg hd] at h
    rw [drawTop_some g (fun hh => hd (by rw [hh]; rfl))] at h
    simp only [Option.some.injEq, Prod.mk.injEq] at h
    exact ⟨g.draw_pile.dropLast, g.play_pile, h.2.symm⟩

/-- A successful `draw_to_current` appends one card to the current hand
and otherwise changes only the piles; the total card count is unchanged. -/
theorem draw_to_current_eq (sh : List Card → List Card) (g g' : UnoGame)
    (hsh : IsShuffle sh)
    (hcur : g.current_player_index < g.hands.length)
    (h : g.draw_to_current sh = some g') :
    (∃ cd dp pp, g' =
      { g with
        draw_pile := dp
        play_pile := pp
        hands := g.hands.set g.current_player_index (g.current_hand ++ [cd]) }) ∧
    g'.totalCards = g.totalCards := by
  unfold UnoGame.draw_to_current at h
  split at h
  · cases h
  · rename_i p c g1 heq
    obtain ⟨dp, pp, hg1⟩ := draw_card_some_eq sh g c g1 heq
    have hspec := draw_card_some_spec sh g c g1 hsh heq
    injection h with h
    subst h
    constructor
    · refine ⟨c, dp, pp, ?_⟩
      rw [hg1]
      rfl
    · have hcur1 : g1.current_player_index < g1.hands.length := by
        rw [hspec.2.1, hspec.1]
        exact hcur
      rw [append_to_current_totalCards g1 c hcur1]
      omega

/-- Iterating `draw_to_current` `n` times appends `n` cards to the
current hand, changes only the piles otherwise, and conserves the total. -/
theorem drawNToCurrent_eq (sh : List Card → List Card) (hsh : IsShuffle sh) :
    ∀ (n : Nat) (g g' : UnoGame),
    g.current_player_index < g.hands.length →
    drawNToCurrent sh n g = some g' →
    ∃ (cds : List Card) (dp pp : List Card),
      cds.length = n ∧
      g' =
        { g with
          draw_pile := dp
          play_pile := pp
          hands := g.hands.set g.current_player_index (g.current_hand ++ cds) } ∧
      g'.totalCards = g.totalCards := by
  intro n
  induction n with
  | zero =>
    intro g g' hcur h
    simp only [drawNToCurrent, Option.some.injEq] at h
    subst h
    refine ⟨[], g.draw_pile, g.play_pile, rfl, ?_, rfl⟩
    rw [List.append_nil]
    unfold UnoGame.current_hand
    rw [set_getD_eq g.hands g.current_player_index hcur]
  | succ n ih =>
    intro g g' hcur h
    simp only [drawNToCurrent] at h
    split at h
    · cases h
    · rename_i g1 heq
      obtain ⟨⟨cd, dp, pp, hg1⟩, htot1⟩ :=
        draw_to_current_eq sh g g1 hsh hcur heq
      have hcur1 : g1.current_player_index < g1.hands.length := by
        rw [hg1]
        simpa using hcur
      obtain ⟨cds, dp2, pp2, hlen, hg', htot⟩ := ih g1 g' hcur1 h
      refine ⟨cd :: cds, dp2, pp2, by simp [hlen], ?_, ?_⟩
      · rw [hg', hg1]
        unfold UnoGame.current_hand
        dsimp only
        rw [getD_set_self _ _ _ _ hcur, List.set_set, List.append_assoc,
          List.singleton_append]
      · rw [htot, htot1]

/-- `Card.activate` conserves the total card count and the shape
invariants (hand-list length equals the player count, current index in
range). -/
theorem activate_spec (sh : List Card → List Card) (c : Card) (g g' : UnoGame)
    (hsh : IsShuffle sh)
    (hlen : g.hands.length = g.num_players)
    (hcur : g.current_player_index < g.num_players)
    (h : activate sh c g = some g') :
    g'.totalCards = g.totalCards ∧
    g'.hands.length = g'.num_players ∧
    g'.current_player_index < g'.num_players ∧
    g'.num_players = g.num_players := by
  have hcur' : g.current_player_index < g.hands.length := by
    rw [hlen]
    exact hcur
  unfold activate at h
  split_ifs at h with h1 h2 h3 h4
  · injection h with h
    subst h
    refine ⟨end_of_turn_totalCards g, ?_, end_of_turn_cur_lt g hcur,
      (end_of_turn_fields g).2.2.2.2.2⟩
    rw [(end_of_turn_fields g).2.2.1, (end_of_turn_fields g).2.2.2.2.2, hlen]
  · split at h
    · cases h
    · rename_i g2 heq
      injection h with h
      subst h
      obtain ⟨cds, dp, pp, hcds, hg2, htot⟩ :=
        drawNToCurrent_eq sh hsh 2 g g2 hcur' heq
      refine ⟨?_, ?_, ?_, ?_⟩
      · rw [end_of_turn_totalCards, htot]
      · rw [(end_of_turn_fields g2).2.2.1, (end_of_turn_fields g2).2.2.2.2.2,
          hg2]
        dsimp only
        rw [List.length_set]
        exact hlen
      · apply end_of_turn_cur_lt
        rw [hg2]
        exact hcur
      · rw [(end_of_turn_fields g2).2.2.2.2.2, hg2]
  · injection h with h
    subst h
    exact ⟨rfl, hlen, hcur, rfl⟩
  · split at h
    · cases h
    · rename_i g4 heq
      injection h with h
      subst h
      obtain ⟨cds, dp, pp, hcds, hg4, htot⟩ :=
        drawNToCurrent_eq sh hsh 4 g g4 hcur' heq
      refine ⟨?_, ?_, ?_, ?_⟩
      · rw [end_of_turn_totalCards, htot]
      · rw [(end_of_turn_fields g4).2.2.1, (end_of_turn_fields g4).2.2.2.2.2,
          hg4]
        dsimp only
        rw [List.length_set]
        exact hlen
      · apply end_of_turn_cur_lt
        rw [hg4]
        exact hcur
      · rw [(end_of_turn_fields g4).2.2.2.2.2, hg4]
  · injection h with h
    subst h
    exact ⟨rfl, hlen, hcur, rfl⟩

/-- The play branch of `play_action` after the membership test: the
card moves from the hand to the play pile, the turn ends, the effect
activates; total cards and shape invariants are conserved. -/
theorem play_branch_inv (sh : List Card → List Card) (g : UnoGame)
    (c cc : Card) (g' : UnoGame)
    (hsh : IsShuffle sh)
    (hlen : g.hands.length = g.num_players)
    (hcur : g.current_player_index < g.num_players)
    (hmem : c ∈ g.current_hand)
    (h : activate sh cc
      ({ g with
          drawn_card := none
          play_pile := g.play_pile ++ [cc]
          hands := g.hands.set g.current_player_index (g.current_hand.erase c)
        } : UnoGame).end_of_turn = some g') :
    g'.totalCards = g.totalCards ∧
    g'.hands.length = g'.num_players ∧
    g'.current_player_index < g'.num_players ∧
    g'.num_players = g.num_players := by
  have hcur' : g.current_player_index < g.hands.length := by
    rw [hlen]
    exact hcur
  have hinner : ({ g with
      drawn_card := none
      play_pile := g.play_pile ++ [cc]
      hands := g.hands.set g.current_player_index (g.current_hand.erase c)
    } : UnoGame).totalCards = g.totalCards := by
    unfold UnoGame.totalCards
    dsimp only
    have hss := sum_length_set g.hands g.current_player_index
      (g.current_hand.erase c) hcur'
    have hch : g.current_hand = g.hands.getD g.current_player_index [] := rfl
    rw [← hch] at hss
    have hel := List.length_erase_of_mem hmem
    have hpos : 1 ≤ g.current_hand.length :=
      List.length_pos.mpr (List.ne_nil_of_mem hmem)
    rw [List.length_append]
    simp only [List.length_singleton]
    omega
  obtain ⟨ht, hl, hc, hn⟩ := activate_spec sh cc _ g' hsh
    (by
      rw [(end_of_turn_fields _).2.2.1, (end_of_turn_fields _).2.2.2.2.2]
      dsimp only
      rw [List.length_set]
      exact hlen)
    (by
      apply end_of_turn_cur_lt
      exact hcur)
    h
  refine ⟨?_, hl, hc, ?_⟩
  · rw [ht, end_of_turn_totalCards, hinner]
  · rw [hn, (end_of_turn_fields _).2.2.2.2.2]

/-- `play_action` conserves the total card count and the shape
invariants whenever it succeeds. -/
theorem play_action_inv (sh : List Card → List Card) (g : UnoGame)
    (a : Action) (g' : UnoGame)
    (hsh : IsShuffle sh)
    (hlen : g.hands.length = g.num_players)
    (hcur : g.current_player_index < g.num_players)
    (h : g.play_action sh a = some g') :
    g'.totalCards = g.totalCards ∧
    g'.hands.length = g'.num_players ∧
    g'.current_player_index < g'.num_players ∧
    g'.num_players = g.num_players := by
  have hcur' : g.current_player_index < g.hands.length := by
    rw [hlen]
    exact hcur
  cases a with
  | pass =>
    simp only [UnoGame.play_action] at h
    injection h with h
    subst h
    refine ⟨?_, ?_, ?_, ?_⟩
    · rw [end_of_turn_totalCards]
      rfl
    · rw [(end_of_turn_fields _).2.2.1, (end_of_turn_fields _).2.2.2.2.2]
      exact hlen
    · exact end_of_turn_cur_lt _ hcur
    · rw [(end_of_turn_fields _).2.2.2.2.2]
  | draw =>
    simp only [UnoGame.play_action] at h
    split at h
    · cases h
    · rename_i p c g1 heq
      have hspec := draw_card_some_spec sh _ c g1 hsh heq
      have hh1 : g1.hands = g.hands := hspec.1
      have hcu1 : g1.current_player_index = g.current_player_index := hspec.2.1
      have hnum1 : g1.num_players = g.num_players := hspec.2.2.2.2.1
      have htot1 : g1.totalCards + 1 = g.totalCards := hspec.2.2.2.2.2.1
      have hcur1 : g1.current_player_index < g1.hands.length := by
        rw [hcu1, hh1]
        exact hcur'
      have happ : (g1.append_to_current c).totalCards = g1.totalCards + 1 :=
        append_to_current_totalCards g1 c hcur1
      split at h
      · injection h with h
        subst h
        refine ⟨?_, ?_, ?_, ?_⟩
        · have hsame : ({ g1.append_to_current c with drawn_card := some c }
              : UnoGame).totalCards = (g1.append_to_current c).totalCards := rfl
          rw [hsame, happ, htot1]
        · show (g1.append_to_current c).hands.length
            = (g1.append_to_current c).num_players
          unfold UnoGame.append_to_current
          dsimp only
          rw [List.length_set, hh1, hnum1]
          exact hlen
        · show (g1.append_to_current c).current_player_index
            < (g1.append_to_current c).num_players
          unfold UnoGame.append_to_current
          dsimp only
          rw [hcu1, hnum1]
          exact hcur
        · show (g1.append_to_current c).num_players = g.num_players
          exact hnum1
      · injection h with h
        subst h
        have hfields := end_of_turn_fields (g1.append_to_current c)
        refine ⟨?_, ?_, ?_, ?_⟩
        · rw [end_of_turn_totalCards, happ, htot1]
        · rw [hfields.2.2.1, hfields.2.2.2.2.2]
          unfold UnoGame.append_to_current
          dsimp only
          rw [List.length_set, hh1, hnum1]
          exact hlen
        · apply end_of_turn_cur_lt
          show (g1.append_to_current c).current_player_index
            < (g1.append_to_current c).num_players
          unfold UnoGame.append_to_current
          dsimp only
          rw [hcu1, hnum1]
          exact hcur
        · rw [hfields.2.2.2.2.2]
          exact hnum1
  | play c col =>
    simp only [UnoGame.play_action] at h
    split_ifs at h with hmem
    exact play_branch_inv sh g c _ g' hsh hlen hcur hmem h

theorem drawN_inv (sh : List Card → List Card) (hsh : IsShuffle sh) :
    ∀ (n : Nat) (g : UnoGame) (cs : List Card) (g' : UnoGame),
    drawN sh n g = some (cs, g') →
    cs.length = n ∧
    g'.totalCards + n = g.totalCards ∧
    g'.hands = g.hands ∧
    g'.current_player_index = g.current_player_index ∧
    g'.clockwise = g.clockwise ∧
    g'.num_players = g.num_players ∧
    (g.play_pile = [] → g'.play_pile = []) := by
  intro n
  induction n with
  | zero =>
    intro g cs g' h
    simp only [drawN, Option.some.injEq, Prod.mk.injEq] at h
    obtain ⟨hcs, hg⟩ := h
    subst hcs
    subst hg
    exact ⟨rfl, rfl, rfl, rfl, rfl, rfl, fun hh => hh⟩
  | succ n ih =>
    intro g cs g' h
    simp only [drawN] at h
    split at h
    · cases h
    · rename_i p c g1 heq
      split at h
      · cases h
      · rename_i q cs2 g2 heq2
        simp only [Option.some.injEq, Prod.mk.injEq] at h
        obtain ⟨hcs, hg⟩ := h
        subst hcs
        subst hg
        have hd := draw_card_some_spec sh g c g1 hsh heq
        have hI := ih g1 cs2 g2 heq2
        refine ⟨by simp [hI.1], by have := hI.2.1; have := hd.2.2.2.2.2.1; omega,
          hI.2.2.1.trans hd.1,
          hI.2.2.2.1.trans hd.2.1,
          hI.2.2.2.2.1.trans hd.2.2.1,
          hI.2.2.2.2.2.1.trans hd.2.2.2.2.1,
          fun hh => hI.2.2.2.2.2.2 (hd.2.2.2.2.2.2 hh)⟩

theorem dealHands_inv (sh : List Card → List Card) (hsh : IsShuffle sh)
    (startCards : Nat) :
    ∀ (k : Nat) (g g' : UnoGame),
    dealHands sh startCards k g = some g' →
    g'.totalCards = g.totalCards ∧
    g'.hands.length = g.hands.length + k ∧
    g'.current_player_index = g.current_player_index ∧
    g'.clockwise = g.clockwise ∧
    g'.num_players = g.num_players ∧
    (g.play_pile = [] → g'.play_pile = []) := by
  intro k
  induction k with
  | zero =>
    intro g g' h
    simp only [dealHands, Option.some.injEq] at h
    subst h
    exact ⟨rfl, rfl, rfl, rfl, rfl, fun hh => hh⟩
  | succ k ih =>
    intro g g' h
    simp only [dealHands] at h
    split at h
    · cases h
    · rename_i p hand g1 heq
      have hd := drawN_inv sh hsh startCards g hand g1 heq
      have hI := ih { g1 with hands := g1.hands ++ [hand] } g' h
      have hmid : ({ g1 with hands := g1.hands ++ [hand] } : UnoGame).totalCards
          = g1.totalCards + hand.length := by
        unfold UnoGame.totalCards
        dsimp only
        rw [List.map_append, List.sum_append]
        simp
        omega
      refine ⟨?_, ?_, ?_, ?_, ?_, ?_⟩
      · rw [hI.1, hmid, hd.1]
        have := hd.2.1
        omega
      · rw [hI.2.1]
        dsimp only
        rw [List.length_append, hd.2.2.1]
        simp
        omega
      · rw [hI.2.2.1]
        exact hd.2.2.2.1
      · rw [hI.2.2.2.1]
        exact hd.2.2.2.2.1
      · rw [hI.2.2.2.2.1]
        exact hd.2.2.2.2.2.1
      · intro hh
        exact hI.2.2.2.2.2 (hd.2.2.2.2.2.2 hh)

theorem reset_inv (sh : List Card → List Card) (wildColor : UColor)
    (deck : List (Char × Char)) (numPlayers startCards : Nat) (g : UnoGame)
    (hsh : IsShuffle sh)
    (h : reset sh wildColor deck numPlayers startCards = some g) :
    g.totalCards = deck.length ∧
    g.hands.length = numPlayers ∧
    g.current_player_index = 0 ∧
    g.num_players = numPlayers := by
  unfold reset at h
  split at h
  · cases h
  · rename_i g1 heq1
    split at h
    · cases h
    · rename_i p c g2 heq2
      injection h with h
      subst h
      have hdeal := dealHands_inv sh hsh startCards numPlayers _ g1 heq1
      have hdraw := draw_card_some_spec sh g1 c g2 hsh heq2
      have hg2play : g2.play_pile = [] :=
        hdraw.2.2.2.2.2.2 (hdeal.2.2.2.2.2 rfl)
      have h2 : g2.totalCards
          = g2.draw_pile.length + (g2.hands.map List.length).sum := by
        unfold UnoGame.totalCards
        rw [hg2play]
        simp
      have h3 : g2.totalCards + 1 = g1.totalCards := hdraw.2.2.2.2.2.1
      have h4 : g1.totalCards = deck.length := by
        rw [hdeal.1]
        unfold UnoGame.totalCards
        dsimp only
        rw [(hsh _).length_eq, List.length_map]
        simp
      refine ⟨?_, ?_, ?_, ?_⟩
      · unfold UnoGame.totalCards
        dsimp only
        simp only [List.length_singleton]
        omega
      · show g2.hands.length = numPlayers
        rw [hdraw.1, hdeal.2.1]
        simp
      · show g2.current_player_index = 0
        rw [hdraw.2.1, hdeal.2.2.1]
      · show g2.num_players = numPlayers
        rw [hdraw.2.2.2.2.1, hdeal.2.2.2.2.1]

theorem reachable_inv (deck : List (Char × Char))
    (numPlayers startCards : Nat) (g : UnoGame)
    (hn : 1 ≤ numPlayers)
    (hr : Reachable deck numPlayers startCards g) :
    g.totalCards = deck.length ∧ g.hands.length = g.num_players ∧
    g.current_player_index < g.num_players ∧ g.num_players = numPlayers := by
  induction hr with
  | from_reset sh wc g0 hsh hwc heq =>
    obtain ⟨ht, hh, hc, hnum⟩ :=
      reset_inv sh wc deck numPlayers startCards g0 hsh heq
    refine ⟨ht, by rw [hh, hnum], ?_, hnum⟩
    rw [hc, hnum]
    omega
  | step sh g1 g2 a hr1 hsh hmem hplay ih =>
    obtain ⟨ht, hh, hc, hnum⟩ := ih
    obtain ⟨ht2, hh2, hc2, hnum2⟩ := play_action_inv sh g1 a g2 hsh hh hc hplay
    exact ⟨ht2.trans ht, hh2, hc2, hnum2.trans hnum⟩

/-- C2: in every state reachable from a successful `reset` by legal
`play_action` steps (in a game with at least one player), the cards in
the draw pile, the play pile and all hands together number exactly the
configured deck's size. -/
theorem total_cards_conserved (deck : List (Char × Char))
    (numPlayers startCards : Nat) (g : UnoGame)
    (hn : 1 ≤ numPlayers)
    (hr : Reachable deck numPlayers startCards g) :
    g.totalCards = deck.length :=
  (reachable_inv deck numPlayers startCards g hn hr).1

theorem total_cards_conserved_witness : gW.totalCards = deckW.length :=
  total_cards_conserved deckW 2 2 gW (by norm_num)
    (Reachable.from_reset id UColor.RED gW (fun l => List.Perm.refl l)
      (by decide) (by decide))

/-- C4: with an empty draw pile and at least two played cards,
`draw_card` keeps exactly the prior top card on the play pile, moves
every other played card (wild colors reset) into the shuffled new draw
pile — one of which is the returned card — and leaves the hands alone;
with at most one played card it fails instead of returning a card. -/
theorem draw_card_recycle_spec (sh : List Card → List Card) (g : UnoGame)
    (hsh : IsShuffle sh) (hempty : g.draw_pile = []) :
    (2 ≤ g.play_pile.length →
      ∃ c g', g.draw_card sh = some (c, g') ∧
        g'.play_pile = [g.top_card] ∧
        (c :: g'.draw_pile).Perm (g.play_pile.dropLast.map resetWildColor) ∧
        (∀ d ∈ c :: g'.draw_pile, d.is_wild = true → d.color = UColor.WILD) ∧
        g'.hands = g.hands) ∧
    (g.play_pile.length ≤ 1 → g.draw_card sh = none) := by
  constructor
  · intro hp2
    have hpn : g.play_pile ≠ [] := by
      intro hh
      rw [hh] at hp2
      simp at hp2
    have htop : g.play_pile.getLast? = some (g.play_pile.getLast hpn) :=
      List.getLast?_eq_getLast _ hpn
    have htopc : g.top_card = g.play_pile.getLast hpn := by
      unfold UnoGame.top_card
      rw [htop]
      rfl
    set L := (sh g.play_pile.dropLast).map resetWildColor with hLdef
    have hLlen : L.length = g.play_pile.length - 1 := by
      rw [hLdef, List.length_map, (hsh _).length_eq, List.length_dropLast]
    have hLne : L ≠ [] := by
      intro hh
      rw [hh] at hLlen
      simp at hLlen
      omega
    have hperm1 : (L.getLast hLne :: L.dropLast).Perm L := by
      have happ : L.dropLast ++ [L.getLast hLne] = L :=
        List.dropLast_append_getLast hLne
      have h2 : (L.getLast hLne :: L.dropLast).Perm (L.dropLast ++ [L.getLast hLne]) :=
        @List.perm_append_comm _ [L.getLast hLne] L.dropLast
      rw [happ] at h2
      exact h2
    refine ⟨L.getLast hLne,
      { g with draw_pile := L.dropLast, play_pile := [g.play_pile.getLast hpn] },
      ?_, ?_, ?_, ?_, rfl⟩
    · unfold UnoGame.draw_card
      rw [if_pos (by rw [hempty]; rfl), recycle_eq sh g _ htop]
      rw [drawTop_some _ hLne]
    · rw [htopc]
    · refine hperm1.trans ?_
      rw [hLdef]
      exact (hsh _).map _
    · intro d hd hw
      have hdL : d ∈ L := hperm1.mem_iff.mp hd
      rw [hLdef] at hdL
      obtain ⟨e, he, hde⟩ := List.mem_map.mp hdL
      subst hde
      unfold resetWildColor at hw ⊢
      by_cases hew : e.is_wild
      · rw [if_pos hew]
      · rw [if_neg hew] at hw
        exact absurd hw (by simpa using hew)
  · intro hp1
    unfold UnoGame.draw_card
    rw [if_pos (by rw [hempty]; rfl)]
    cases hpp : g.play_pile.getLast? with
    | none =>
      rw [recycle_eq_of_play_nil sh g (List.getLast?_eq_none_iff.mp hpp)]
      exact drawTop_none g hempty
    | some top =>
      rw [recycle_eq sh g top hpp]
      apply drawTop_none
      have hpn : g.play_pile ≠ [] := by
        intro hh
        rw [hh] at hpp
        cases hpp
      have hlen1 : g.play_pile.length = 1 := by
        have := List.length_pos.mpr hpn
        omega
      have hdl : g.play_pile.dropLast = [] := by
        have hh : g.play_pile.dropLast.length = 0 := by
          rw [List.length_dropLast, hlen1]
        exact List.length_eq_zero.mp hh
      show ((sh g.play_pile.dropLast).map resetWildColor) = []
      rw [hdl, (hsh []).eq_nil]
      rfl

theorem draw_card_recycle_spec_witness :
    ∃ c g', gC4.draw_card id = some (c, g') ∧
      g'.play_pile = [gC4.top_card] ∧
      (c :: g'.draw_pile).Perm (gC4.play_pile.dropLast.map resetWildColor) ∧
      (∀ d ∈ c :: g'.draw_pile, d.is_wild = true → d.color = UColor.WILD) ∧
      g'.hands = gC4.hands :=
  (draw_card_recycle_spec id gC4 (fun l => List.Perm.refl l) rfl).1 (by decide)

theorem sum_map_div (l : List ℚ) (s : ℚ) :
    (l.map (fun x => x / s)).sum = l.sum / s := by
  induction l with
  | nil => simp
  | cons a t ih => simp [ih, add_div]

/-- C1: `train_sarsa_experience` is supposed to perform the game
transition between choosing the action and computing the update target,
but the code never calls `play_action`: the `result_state` it reads
(line 97 of reinforcement.py) is the state of the same, unmodified
engine, while actually playing a legal action (here `aC1` on `gC1`)
changes the observed state. -/
theorem sarsa_experience_uses_untransitioned_state :
    (∀ g : UnoGame,
      (sarsa_experience_game_reads g).2.1 = (sarsa_experience_game_reads g).1) ∧
    aC1 ∈ gC1.get_actions ∧
    (gC1.play_action id aC1).isSome = true ∧
    (gC1.play_action id aC1).map UnoGame.get_state ≠ some gC1.get_state := by
  refine ⟨fun g => rfl, ?_, ?_, ?_⟩ <;> decide

/-- C3: the loops of `prepare_game` discard the chosen action and never
call `play_action`, so the engine value is a fixed point of the loop
body; if the agent is not the current player and the game is not over,
the loop guard remains true after any number of iterations and
`prepare_game` never terminates, contradicting the claim that it
fast-forwards the game to the agent's turn. -/
theorem prepare_game_loop_never_advances (agentIdx : Nat) (g : UnoGame)
    (h : prepare_game_guard agentIdx g = true) :
    ∀ n : Nat, prepare_game_guard agentIdx (prepare_game_loop_body^[n] g) = true := by
  intro n
  rw [Function.iterate_fixed rfl n]
  exact h

theorem prepare_game_loop_never_advances_witness :
    prepare_game_guard 1 (prepare_game_loop_body^[1000] gC1) = true :=
  prepare_game_loop_never_advances 1 gC1 (by decide) 1000

theorem findIdx?_set_empty_aux (hands : List (List Card)) (i : Nat)
    (hi : i < hands.length) (hne : ∀ hh ∈ hands, hh ≠ []) (s : Nat) :
    List.findIdx? (fun hh => hh.length = 0) (hands.set i []) s = some (s + i) := by
  induction hands generalizing i s with
  | nil => simp at hi
  | cons a t ih =>
    cases i with
    | zero =>
      rw [List.set_cons_zero, List.findIdx?_cons]
      simp
    | succ n =>
      rw [List.set_cons_succ, List.findIdx?_cons]
      have ha : a ≠ [] := hne a (List.mem_cons_self a t)
      rw [if_neg (by simp [List.length_eq_zero, ha])]
      rw [ih n (Nat.lt_of_succ_lt_succ hi)
        (fun hh hm => hne hh (List.mem_cons_of_mem a hm)) (s + 1)]
      congr 1
      omega

theorem findIdx?_set_empty (hands : List (List Card)) (i : Nat)
    (hi : i < hands.length) (hne : ∀ hh ∈ hands, hh ≠ []) :
    (hands.set i ([] : List Card)).findIdx? (fun hh => hh.length = 0)
      = some i := by
  have := findIdx?_set_empty_aux hands i hi hne 0
  simpa using this

/-- The play branch of `play_action` for a DrawTwo: after the card moves
to the pile and the turn advances, `activate` makes the new current
player (the next player in direction order) draw two cards and then
advances the turn once more.  `cc` is the (possibly recolored) played
card, `c` the hand card it came from. -/
theorem drawtwo_branch (sh : List Card → List Card) (g : UnoGame)
    (c cc : Card) (g' : UnoGame)
    (hsh : IsShuffle sh)
    (hrank : cc.rank = some 'D')
    (hn2 : 2 ≤ g.num_players)
    (hlen : g.hands.length = g.num_players)
    (hcur : g.current_player_index < g.num_players)
    (hnonempty : ∀ hh ∈ g.hands, hh ≠ [])
    (hafter : g.current_hand.erase c ≠ [])
    (hplay : activate sh cc
      ({ g with
          drawn_card := none
          play_pile := g.play_pile ++ [cc]
          hands := g.hands.set g.current_player_index (g.current_hand.erase c)
        } : UnoGame).end_of_turn = some g') :
    g'.clockwise = g.clockwise ∧
    (g'.hands.getD g.next_player_index []).length
        = (g.hands.getD g.next_player_index []).length + 2 ∧
    g'.current_player_index
        = ({ g with current_player_index := g.next_player_index }
            : UnoGame).next_player_index := by
  have hnum1 : 1 ≤ g.num_players := by omega
  have hj : g.next_player_index < g.num_players := next_player_index_lt g hnum1
  have hjne : g.next_player_index ≠ g.current_player_index :=
    next_player_index_ne g hn2 hcur
  have hover : ({ g with
      drawn_card := none
      play_pile := g.play_pile ++ [cc]
      hands := g.hands.set g.current_player_index (g.current_hand.erase c)
    } : UnoGame).is_over = false := by
    unfold UnoGame.is_over
    dsimp only
    rw [List.any_eq_false]
    intro x hx
    rcases List.mem_or_eq_of_mem_set hx with hxo | hxe
    · simpa [List.length_eq_zero] using hnonempty x hxo
    · subst hxe
      simpa [List.length_eq_zero] using hafter
  rw [end_of_turn_of_not_over _ hover] at hplay
  unfold activate at hplay
  rw [if_neg (by simp [hrank]), if_pos hrank] at hplay
  split at hplay
  · cases hplay
  · rename_i g2 heq
    injection hplay with hplay
    subst hplay
    have hcurs : g.next_player_index
        < (g.hands.set g.current_player_index (g.current_hand.erase c)).length := by
      rw [List.length_set, hlen]
      exact hj
    obtain ⟨cds, dp, pp, hcds, hg2, htot⟩ :=
      drawNToCurrent_eq sh hsh 2 _ g2 hcurs heq
    refine ⟨?_, ?_, ?_⟩
    · rw [(end_of_turn_fields g2).2.2.2.1, hg2]
    · rw [(end_of_turn_fields g2).2.2.1, hg2]
      show (((g.hands.set g.current_player_index (g.current_hand.erase c)).set
          g.next_player_index
          ((g.hands.set g.current_player_index (g.current_hand.erase c)).getD
              g.next_player_index [] ++ cds)).getD g.next_player_index []).length
        = (g.hands.getD g.next_player_index []).length + 2
      rw [getD_set_self _ _ _ _ hcurs, List.length_append, hcds,
        getD_set_ne _ _ _ _ _ (Ne.symm hjne)]
    · have hover2 : g2.is_over = false := by
        rw [hg2]
        unfold UnoGame.is_over
        dsimp only
        rw [List.any_eq_false]
        intro x hx
        rcases List.mem_or_eq_of_mem_set hx with hxo | hxe
        · rcases List.mem_or_eq_of_mem_set hxo with hxg | hxee
          · simpa [List.length_eq_zero] using hnonempty x hxg
          · subst hxee
            simpa [List.length_eq_zero] using hafter
        · subst hxe
          simp [List.length_append, hcds]
      rw [end_of_turn_of_not_over g2 hover2, hg2]
      rfl

/-- C5 amended: when the current player plays a DrawTwo that does not
empty their hand (and all hands are non-empty before the play), the
next player in direction order gains exactly 2 cards and is skipped:
the direction is unchanged, the hand at the next index grows by 2, and
the turn pointer ends two advances past the original player. -/
theorem drawtwo_next_player_draws_two (sh : List Card → List Card)
    (g g' : UnoGame) (c : Card) (col : Option UColor)
    (hsh : IsShuffle sh)
    (hrank : c.rank = some 'D')
    (hn2 : 2 ≤ g.num_players)
    (hlen : g.hands.length = g.num_players)
    (hcur : g.current_player_index < g.num_players)
    (hnonempty : ∀ hh ∈ g.hands, hh ≠ [])
    (hafter : g.current_hand.erase c ≠ [])
    (hplay : g.play_action sh (Action.play c col) = some g') :
    g'.clockwise = g.clockwise ∧
    (g'.hands.getD g.next_player_index []).length
        = (g.hands.getD g.next_player_index []).length + 2 ∧
    g'.current_player_index
        = ({ g with current_player_index := g.next_player_index }
            : UnoGame).next_player_index := by
  simp only [UnoGame.play_action] at hplay
  split_ifs at hplay with hmem
  cases col with
  | none =>
    exact drawtwo_branch sh g c c g' hsh hrank hn2 hlen hcur hnonempty
      hafter hplay
  | some chosen =>
    exact drawtwo_branch sh g c { c with color := chosen } g' hsh hrank hn2
      hlen hcur hnonempty hafter hplay

/-- C5 counterexample: in `gC5` the DrawTwo is the current player's last
card; `end_of_turn` does not advance past a finished game, the forced
draws then land in the *player's own* emptied hand (un-ending the game),
and the turn advances only once: the next player gains nothing and is
not skipped. -/
theorem drawtwo_claim_counterexample :
    aC5 ∈ gC5.get_actions ∧
    cardRD.rank = some 'D' ∧
    (gC5.play_action id aC5).isSome = true ∧
    ((gC5.play_action id aC5).map
        (fun g' => (g'.hands.getD gC5.next_player_index []).length))
      ≠ some ((gC5.hands.getD gC5.next_player_index []).length + 2) ∧
    ((gC5.play_action id aC5).map (fun g' => g'.current_player_index))
      ≠ some (({ gC5 with current_player_index := gC5.next_player_index }
          : UnoGame).next_player_index) := by
  refine ⟨?_, ?_, ?_, ?_, ?_⟩ <;> decide

theorem drawtwo_next_player_draws_two_witness :
    gC5w'.clockwise = gC5w.clockwise ∧
    (gC5w'.hands.getD gC5w.next_player_index []).length
        = (gC5w.hands.getD gC5w.next_player_index []).length + 2 ∧
    gC5w'.current_player_index
        = ({ gC5w with current_player_index := gC5w.next_player_index }
            : UnoGame).next_player_index :=
  drawtwo_next_player_draws_two id gC5w gC5w' cardRD none
    (fun l => List.Perm.refl l) (by decide) (by decide) (by decide)
    (by decide) (by decide) (by decide) (by decide)

/-- The play branch of `play_action` when the played card empties the
current player's hand and its rank is neither DrawTwo nor WildDrawFour:
the player stays current, the game is over, and the reward from the
current player's perspective is +1. -/
theorem winplay_branch (sh : List Card → List Card) (g : UnoGame)
    (c cc : Card) (g' : UnoGame)
    (hD : cc.rank ≠ some 'D')
    (hX : cc.rank ≠ some 'X')
    (hcur : g.current_player_index < g.hands.length)
    (hnonempty : ∀ hh ∈ g.hands, hh ≠ [])
    (hlast : g.current_hand.erase c = [])
    (hplay : activate sh cc
      ({ g with
          drawn_card := none
          play_pile := g.play_pile ++ [cc]
          hands := g.hands.set g.current_player_index (g.current_hand.erase c)
        } : UnoGame).end_of_turn = some g') :
    g'.current_player_index = g.current_player_index ∧
    g'.is_over = true ∧ g'.get_reward = 1 := by
  rw [hlast] at hplay
  have hany : (g.hands.set g.current_player_index ([] : List Card)).any
      (fun hh => hh.length = 0) = true := by
    rw [List.any_eq_true]
    exact ⟨[], List.mem_set g.hands g.current_player_index hcur [], by simp⟩
  have hover : ({ g with
      drawn_card := none
      play_pile := g.play_pile ++ [cc]
      hands := g.hands.set g.current_player_index ([] : List Card)
    } : UnoGame).is_over = true := hany
  have hrew : ∀ s : UnoGame,
      s.hands = g.hands.set g.current_player_index []
      → s.current_player_index = g.current_player_index
      → s.get_reward = 1 := by
    intro s hs hsc
    have hso : s.is_over = true := by
      unfold UnoGame.is_over
      rw [hs]
      exact hany
    unfold UnoGame.get_reward
    rw [if_pos hso]
    unfold UnoGame.winner_index
    rw [hs, hsc, findIdx?_set_empty g.hands g.current_player_index hcur
      hnonempty]
    rw [if_pos rfl]
  rw [end_of_turn_of_over _ hover] at hplay
  unfold activate at hplay
  split_ifs at hplay with h1 h2
  · rw [end_of_turn_of_over _ hover] at hplay
    injection hplay with hplay
    subst hplay
    exact ⟨rfl, hover, hrew _ rfl rfl⟩
  · injection hplay with hplay
    subst hplay
    exact ⟨rfl, hover, hrew _ rfl rfl⟩
  · injection hplay with hplay
    subst hplay
    exact ⟨rfl, hover, hrew _ rfl rfl⟩

/-- C10: `end_of_turn` never moves the turn pointer once the game is
over; and (amended) when a player wins by playing their last card and
that card's rank is neither DrawTwo nor WildDrawFour, the winner remains
the current player and `get_reward` returns +1.  (A DrawTwo or
WildDrawFour as the last card forces draws into the winner's own emptied
hand, un-ending the game — see the counterexample.) -/
theorem end_of_turn_frame_and_winner_reward (sh : List Card → List Card)
    (g g' : UnoGame) (c : Card) (col : Option UColor)
    (hD : c.rank ≠ some 'D')
    (hX : c.rank ≠ some 'X')
    (hcur : g.current_player_index < g.hands.length)
    (hnonempty : ∀ hh ∈ g.hands, hh ≠ [])
    (hlast : g.current_hand.erase c = [])
    (hplay : g.play_action sh (Action.play c col) = some g') :
    (∀ h : UnoGame, h.is_over = true → h.end_of_turn = h) ∧
    g'.current_player_index = g.current_player_index ∧
    g'.is_over = true ∧
    g'.get_reward = 1 := by
  refine ⟨fun h hh => end_of_turn_of_over h hh, ?_⟩
  simp only [UnoGame.play_action] at hplay
  split_ifs at hplay with hmem
  cases col with
  | none =>
    exact winplay_branch sh g c c g' hD hX hcur hnonempty hlast hplay
  | some chosen =>
    exact winplay_branch sh g c { c with color := chosen } g' hD hX hcur
      hnonempty hlast hplay

/-- C10 counterexample: in `gC5` the current player plays their last
card, a DrawTwo; afterwards the game is not over, the turn has moved to
the other player, and `get_reward` returns 0 — not +1 for the winner. -/
theorem winner_reward_counterexample :
    gC5.current_hand = [cardRD] ∧
    aC5 ∈ gC5.get_actions ∧
    ((gC5.play_action id aC5).map (fun g' => g'.current_player_index))
      ≠ some gC5.current_player_index ∧
    ((gC5.play_action id aC5).map UnoGame.is_over) ≠ some true ∧
    ((gC5.play_action id aC5).map UnoGame.get_reward) ≠ some 1 := by
  refine ⟨?_, ?_, ?_, ?_, ?_⟩ <;> decide

theorem end_of_turn_frame_and_winner_reward_witness :
    gC10w'.current_player_index = gC10w.current_player_index ∧
    gC10w'.is_over = true ∧
    gC10w'.get_reward = 1 :=
  (end_of_turn_frame_and_winner_reward id gC10w gC10w' cardR5 none
    (by decide) (by decide) (by decide) (by decide) (by decide) (by decide)).2

theorem mem_playVariants (c : Card) (a : Action) :
    a ∈ playVariants c ↔
      ((c.is_wild = true ∧ ∃ col ∈ ([UColor.RED, UColor.BLUE, UColor.YELLOW,
         UColor.GREEN] : List UColor), a = Action.play c (some col)) ∨
       (c.is_wild = false ∧ a = Action.play c none)) := by
  unfold playVariants
  by_cases hw : c.is_wild
  · rw [if_pos hw]
    simp only [hw, List.mem_map, true_and, false_and, or_false,
      Bool.true_eq_false]
    constructor
    · rintro ⟨col, hcol, rfl⟩
      exact ⟨col, hcol, rfl⟩
    · rintro ⟨col, hcol, rfl⟩
      exact ⟨col, hcol, rfl⟩
  · rw [if_neg hw]
    have hw' : c.is_wild = false := by
      cases hb : c.is_wild
      · rfl
      · exact absurd hb hw
    simp only [hw', List.mem_singleton, true_and, false_and, or_false,
      Bool.false_eq_true, false_or]

theorem playVariants_ne_nil (c : Card) : playVariants c ≠ [] := by
  unfold playVariants
  by_cases hw : c.is_wild <;> simp [hw]

/-- C6: with a pending drawn card the legal actions are exactly Pass and
plays of that very card (four color variants when it is wild) — no other
hand card may be played; with no pending card the legal actions are
exactly the plays of the playable hand cards (wilds expanded into the
four colors), with Draw available if and only if no hand card is
playable, and then as the sole action. -/
theorem get_actions_characterization (g : UnoGame) (hover : g.is_over = false) :
    (∀ dc, g.drawn_card = some dc →
      ∀ a, a ∈ g.get_actions ↔
        (a = Action.pass ∨
         (dc.is_wild = true ∧ ∃ col ∈ ([UColor.RED, UColor.BLUE, UColor.YELLOW,
            UColor.GREEN] : List UColor), a = Action.play dc (some col)) ∨
         (dc.is_wild = false ∧ a = Action.play dc none))) ∧
    (g.drawn_card = none →
      ∀ a, a ∈ g.get_actions ↔
        ((∃ c ∈ g.current_hand, c.is_playable g.top_card = true ∧
            ((c.is_wild = true ∧ ∃ col ∈ ([UColor.RED, UColor.BLUE, UColor.YELLOW,
               UColor.GREEN] : List UColor), a = Action.play c (some col)) ∨
             (c.is_wild = false ∧ a = Action.play c none))) ∨
         (a = Action.draw ∧ ∀ c ∈ g.current_hand, c.is_playable g.top_card = false))) := by
  have hmem : ∀ b, b ∈ g.current_hand.flatMap
      (fun c => if c.is_playable g.top_card then playVariants c else []) ↔
      ∃ c ∈ g.current_hand, c.is_playable g.top_card = true ∧ b ∈ playVariants c := by
    intro b
    rw [List.mem_flatMap]
    constructor
    · rintro ⟨c, hc, hb⟩
      by_cases hp : c.is_playable g.top_card
      · exact ⟨c, hc, hp, by rwa [if_pos hp] at hb⟩
      · rw [if_neg hp] at hb
        cases hb
    · rintro ⟨c, hc, hp, hb⟩
      exact ⟨c, hc, by rw [if_pos hp]; exact hb⟩
  constructor
  · intro dc hdc a
    unfold UnoGame.get_actions
    rw [hover]
    simp only [hdc, Bool.false_eq_true, if_false, List.mem_cons,
      mem_playVariants]
  · intro hdc a
    unfold UnoGame.get_actions
    rw [hover]
    simp only [hdc, Bool.false_eq_true, if_false]
    by_cases hnil : (g.current_hand.flatMap
        (fun c => if c.is_playable g.top_card then playVariants c else [])).length = 0
    · rw [if_pos hnil]
      have hnone : ∀ c ∈ g.current_hand, c.is_playable g.top_card = false := by
        intro c hc
        cases hb : c.is_playable g.top_card
        · rfl
        · exfalso
          obtain ⟨b, hb2⟩ :=
            List.exists_mem_of_ne_nil _ (playVariants_ne_nil c)
          have hmb := (hmem b).mpr ⟨c, hc, hb, hb2⟩
          exact List.ne_nil_of_mem hmb (List.length_eq_zero.mp hnil)
      simp only [List.mem_singleton]
      constructor
      · intro ha
        exact Or.inr ⟨ha, hnone⟩
      · rintro (⟨c, hc, hp, _⟩ | ⟨ha, _⟩)
        · rw [hnone c hc] at hp
          cases hp
        · exact ha
    · rw [if_neg hnil]
      rw [hmem a]
      constructor
      · rintro ⟨c, hc, hp, hv⟩
        exact Or.inl ⟨c, hc, hp, (mem_playVariants c a).mp hv⟩
      · rintro (⟨c, hc, hp, hv⟩ | ⟨_, hall⟩)
        · exact ⟨c, hc, hp, (mem_playVariants c a).mpr hv⟩
        · exfalso
          apply hnil
          rw [List.length_eq_zero]
          apply List.flatMap_eq_nil_iff.mpr
          intro x hx
          rw [hall x hx]
          rfl

theorem get_actions_characterization_witness :
    Action.draw ∈ gC1.get_actions ↔
      ((∃ c ∈ gC1.current_hand, c.is_playable gC1.top_card = true ∧
          ((c.is_wild = true ∧ ∃ col ∈ ([UColor.RED, UColor.BLUE, UColor.YELLOW,
             UColor.GREEN] : List UColor), Action.draw = Action.play c (some col)) ∨
           (c.is_wild = false ∧ Action.draw = Action.play c none))) ∨
       (Action.draw = Action.draw ∧
        ∀ c ∈ gC1.current_hand, c.is_playable gC1.top_card = false)) :=
  (get_actions_characterization gC1 (by decide)).2 rfl Action.draw

/-- C7 counterexample: in the counter-clockwise three-player position
`gC7` the first entry of `opponent_hands` is the hand size of the
clockwise neighbour (2 cards), not of the player the turn passes to
next (3 cards). -/
theorem opponent_hands_ignores_direction :
    gC7.clockwise = false ∧
    gC7.opponent_hands.getD 0 0 = 2 ∧
    (gC7.hands.getD gC7.next_player_index []).length = 3 ∧
    gC7.opponent_hands.getD 0 0 ≠ (gC7.hands.getD gC7.next_player_index []).length := by
  refine ⟨?_, ?_, ?_, ?_⟩ <;> decide

/-- C7 amended: the first entry of `opponent_hands` is always the hand
size at clockwise offset 1 from the current player; this is the next
player's hand size when play is clockwise. -/
theorem opponent_hands_clockwise_from_current (g : UnoGame)
    (hn : 2 ≤ g.num_players) :
    g.opponent_hands.getD 0 0
        = (g.hands.getD ((g.current_player_index + 1) % g.num_players) []).length ∧
    (g.clockwise = true →
      g.opponent_hands.getD 0 0
        = (g.hands.getD g.next_player_index []).length) := by
  obtain ⟨m, hm⟩ : ∃ m, g.num_players - 1 = m + 1 := ⟨g.num_players - 2, by omega⟩
  have h1 : g.opponent_hands.getD 0 0
      = (g.hands.getD ((g.current_player_index + 1) % g.num_players) []).length := by
    unfold UnoGame.opponent_hands
    rw [hm, List.range_succ_eq_map]
    simp
  refine ⟨h1, fun hcw => ?_⟩
  rw [h1]
  have hnext : g.next_player_index = (g.current_player_index + 1) % g.num_players := by
    unfold UnoGame.next_player_index
    rw [hcw]
    rw [if_pos rfl]
    rw [show ((g.current_player_index : Int) + 1)
          = ((g.current_player_index + 1 : Nat) : Int) by push_cast; ring]
    rw [← Int.natCast_mod, Int.toNat_natCast]
  rw [hnext]

theorem opponent_hands_clockwise_witness :
    gC7cw.opponent_hands.getD 0 0
      = (gC7cw.hands.getD gC7cw.next_player_index []).length :=
  (opponent_hands_clockwise_from_current gC7cw (by decide)).2 rfl

/-- C8: `normalize_weights` leaves the weights unchanged when the sum of
their absolute values is at most 1; otherwise it rescales them so that
the absolute values sum to exactly 1 while every pairwise ratio is
preserved (stated multiplicatively to cover zero weights). -/
theorem normalize_weights_spec (w : List ℚ) :
    (1 < (w.map (fun x => |x|)).sum →
      ((normalize_weights w).map (fun x => |x|)).sum = 1 ∧
      ∀ i j : Nat,
        (normalize_weights w).getD i 0 * w.getD j 0
          = w.getD i 0 * (normalize_weights w).getD j 0) ∧
    ((w.map (fun x => |x|)).sum ≤ 1 → normalize_weights w = w) := by
  constructor
  · intro hs
    have hspos : (0 : ℚ) < (w.map (fun x => |x|)).sum := lt_trans one_pos hs
    have hnorm : normalize_weights w
        = w.map (fun x => x / (w.map (fun x => |x|)).sum) := by
      simp [normalize_weights, hs]
    constructor
    · rw [hnorm]
      set s := (w.map (fun x => |x|)).sum with hsdef
      have hmm : ((w.map (fun x => x / s)).map (fun x => |x|)).sum
          = ((w.map (fun x => |x|)).map (fun x => x / s)).sum := by
        rw [List.map_map, List.map_map]
        congr 1
        congr 1
        funext x
        show |x / s| = |x| / s
        rw [abs_div, abs_of_pos hspos]
      rw [hmm, sum_map_div, ← hsdef, div_self (ne_of_gt hspos)]
    · intro i j
      rw [hnorm]
      simp only [List.getD_eq_getElem?_getD, List.getElem?_map]
      rcases hi : w[i]? with _ | x <;> rcases hj : w[j]? with _ | y <;>
        simp only [hi, hj, Option.map_some', Option.map_none', Option.getD_some,
          Option.getD_none] <;> ring
  · intro hs
    have : ¬ (1 < (w.map (fun x => |x|)).sum) := not_lt.mpr hs
    simp [normalize_weights, this]

theorem normalize_weights_spec_witness :
    ((normalize_weights [2, -2]).map (fun x => |x|)).sum = 1 ∧
    normalize_weights [(1 : ℚ)/4, 1/4] = [(1 : ℚ)/4, 1/4] :=
  ⟨((normalize_weights_spec [2, -2]).1 (by norm_num)).1,
   (normalize_weights_spec [(1 : ℚ)/4, 1/4]).2 (by norm_num [abs_of_pos])⟩

/-- C9 counterexample: the history `dataC9` is non-empty and its latest
record's feature names exactly match the configured features `["a"]`
(that record alone loads fine), yet loading the full history fails,
because `validate_training_data` checks every record, not only the
latest one. -/
theorem load_training_data_checks_all_records :
    dataC9 ≠ [] ∧
    dataC9.getLast? = some recA ∧
    (load_training_data ["a"] [recA]).isOk = true ∧
    (load_training_data ["a"] dataC9).isOk = false := by
  refine ⟨?_, ?_, ?_, ?_⟩ <;> decide

/-- C9 amended: loading fails iff the history is empty or the feature
names of ANY record differ from the configured feature set; on success
the whole history and the latest record's weights are installed. -/
theorem validate_ok_iff (featureNames : List String)
    (data : List TrainingRecord) :
    validate_training_data featureNames data = Except.ok () ↔
      (data ≠ [] ∧ ∀ r ∈ data, featureNames.toFinset = r.feature_keys) := by
  unfold validate_training_data
  by_cases h0 : data.length = 0
  · rw [if_pos h0]
    simp [List.length_eq_zero.mp h0]
  · rw [if_neg h0]
    have hne : data ≠ [] := by simpa [List.length_eq_zero] using h0
    by_cases hall : data.all
        (fun epoch => featureNames.toFinset = epoch.feature_keys)
    · rw [if_pos hall]
      simp only [List.all_eq_true, decide_eq_true_eq] at hall
      exact iff_of_true rfl ⟨hne, hall⟩
    · rw [if_neg hall]
      simp only [List.all_eq_true, decide_eq_true_eq] at hall
      push_neg at hall
      obtain ⟨r, hr, hner⟩ := hall
      constructor
      · intro h; simp at h
      · rintro ⟨_, hforall⟩
        exact absurd (hforall r hr) hner

/-- C9 amended: loading fails iff the history is empty or the feature
names of ANY record differ from the configured feature set; on success
the whole history and the latest record's weights are installed. -/
theorem load_training_data_spec (featureNames : List String)
    (data : List TrainingRecord) :
    ((load_training_data featureNames data).isOk = true ↔
      (data ≠ [] ∧ ∀ r ∈ data, featureNames.toFinset = r.feature_keys)) ∧
    (∀ h w, load_training_data featureNames data = Except.ok (h, w) →
      h = data ∧ some w = (data.getLast?).map TrainingRecord.weights) := by
  constructor
  · unfold load_training_data
    cases hv : validate_training_data featureNames data with
    | error e =>
      simp only [Except.isOk, Except.toBool]
      constructor
      · intro hfalse; cases hfalse
      · rintro ⟨hne, hforall⟩
        have := (validate_ok_iff featureNames data).mpr ⟨hne, hforall⟩
        rw [hv] at this; cases this
    | ok u =>
      cases u
      have hok := (validate_ok_iff featureNames data).mp hv
      exact iff_of_true rfl hok
  · intro h w heq
    unfold load_training_data at heq
    cases hv : validate_training_data featureNames data with
    | error e => rw [hv] at heq; cases heq
    | ok u =>
      rw [hv] at heq
      cases u
      have hok := (validate_ok_iff featureNames data).mp hv
      obtain ⟨r, hr⟩ : ∃ r, data.getLast? = some r := by
        cases hg : data.getLast? with
        | none => exact absurd (List.getLast?_eq_none_iff.mp hg) hok.1
        | some r => exact ⟨r, rfl⟩
      rw [hr] at heq ⊢
      simp only [Option.map_some', Option.getD_some, Except.ok.injEq,
        Prod.mk.injEq] at heq
      exact ⟨heq.1.symm, by simp [heq.2]⟩

theorem load_training_data_spec_witness :
    [recA] = [recA] ∧
    some [("a", (1 : ℚ))]
      = (([recA] : List TrainingRecord).getLast?).map TrainingRecord.weights :=
  (load_training_data_spec ["a"] [recA]).2 [recA] [("a", 1)] (by rfl)

end Uno
